import Mathlib

/-!
Shallow embedding of the Text-Extractor-Translator core pipeline
(src/models/ml_enchancement.py, src/models/ocr_model.py,
src/services/image_preprocessing.py, src/services/nlp_processing.py,
src/services/text_extraction.py).

Python strings are modelled as Lean `String` / `List Char`; Python floats
carrying confidences and image metrics are modelled as `ℚ`; Python
exceptions raised by external collaborators (TensorFlow, spaCy, OpenCV)
are modelled with `Option` / `Except`.  The regular-expression
substitutions of the source are embedded as explicit left-to-right
scanners over `List Char` that mirror `re.sub` semantics (leftmost match,
greedy quantifiers, advance one character on failure).
-/

namespace TextExtractor

/-- Python whitespace class: the characters matched by `\s` and stripped by
`str.strip()` (ASCII subset: space, tab, newline, carriage return,
vertical tab, form feed). -/
def isPySpace (c : Char) : Bool :=
  c == ' ' || c == '\t' || c == '\n' || c == '\r' || c == '\x0B' || c == '\x0C'

/-- ASCII digit, the regex class `[0-9]` / `\d`. -/
def isDigitChar (c : Char) : Bool := '0' ≤ c && c ≤ '9'

/-- ASCII lowercase letter, the regex class `[a-z]`. -/
def isLowerAZ (c : Char) : Bool := 'a' ≤ c && c ≤ 'z'

/-- ASCII uppercase letter, the regex class `[A-Z]`. -/
def isUpperAZ (c : Char) : Bool := 'A' ≤ c && c ≤ 'Z'

/-- ASCII letter, the regex class `[A-Za-z]`. -/
def isAsciiLetter (c : Char) : Bool := isLowerAZ c || isUpperAZ c

/-- Regex word-character class `\w` (ASCII fragment: letter, digit or
underscore). -/
def isWordChar (c : Char) : Bool := isAsciiLetter c || isDigitChar c || c == '_'

/-- Python truthiness test `not text or not text.strip()`: the string is
empty or consists only of whitespace. -/
def isBlank (s : String) : Bool := s.data.all isPySpace

/-- Length of `List.dropWhile` never exceeds the input length. -/
def dropWhile_len_le (p : Char → Bool) (l : List Char) :
    (l.dropWhile p).length ≤ l.length := by
  induction l with
  | nil => simp
  | cons a r ih =>
    by_cases h : p a
    · simp [List.dropWhile, h]
      omega
    · simp [List.dropWhile, h]

/-- Test whether `pat` is an initial segment of `l`. -/
def startsWith : List Char → List Char → Bool
  | [], _ => true
  | _ :: _, [] => false
  | p :: ps, c :: cs => p == c && startsWith ps cs

/-- Python `str.replace(pat, rep)`: replace every non-overlapping occurrence
of `pat`, scanning left to right (used for the character-substitution table
of `MLEnhancementModel._apply_rule_based_corrections`). -/
def strReplace (pat rep : List Char) : List Char → List Char
  | [] => []
  | c :: rest =>
    if h : startsWith pat (c :: rest) && !pat.isEmpty then
      rep ++ strReplace pat rep ((c :: rest).drop pat.length)
    else
      c :: strReplace pat rep rest
termination_by l => l.length
decreasing_by
  · have hp : 1 ≤ pat.length := by
      cases pat with
      | nil => simp at h
      | cons x xs => simp
    simp only [List.length_drop, List.length_cons]
    omega
  · simp only [List.length_cons]
    omega

/-- Regex pass `([0-9])([A-Za-z]) → \1 \2` of
`MLEnhancementModel.common_errors` (insert a space between a digit and a
following letter). -/
def fixDigitLetter : List Char → List Char
  | [] => []
  | [c] => [c]
  | a :: b :: rest =>
    if isDigitChar a && isAsciiLetter b then a :: ' ' :: b :: fixDigitLetter rest
    else a :: fixDigitLetter (b :: rest)

/-- Regex pass `([A-Za-z])([0-9]) → \1 \2` of
`MLEnhancementModel.common_errors` (insert a space between a letter and a
following digit). -/
def fixLetterDigit : List Char → List Char
  | [] => []
  | [c] => [c]
  | a :: b :: rest =>
    if isAsciiLetter a && isDigitChar b then a :: ' ' :: b :: fixLetterDigit rest
    else a :: fixLetterDigit (b :: rest)

/-- Regex pass `l([^a-z]) → I\1` of `MLEnhancementModel.common_errors`
(lowercase l before a non-lowercase character becomes uppercase I). -/
def fixLowerLtoI : List Char → List Char
  | [] => []
  | [c] => [c]
  | a :: b :: rest =>
    if a == 'l' && !(isLowerAZ b) then 'I' :: b :: fixLowerLtoI rest
    else a :: fixLowerLtoI (b :: rest)

/-- Regex pass `(\w)\.(\w) → \1. \2` of `MLEnhancementModel.common_errors`
(insert a space after a period that directly joins two word characters). -/
def fixMergedSentence : List Char → List Char
  | a :: '.' :: b :: rest =>
    if isWordChar a && isWordChar b then
      a :: '.' :: ' ' :: b :: fixMergedSentence rest
    else a :: fixMergedSentence ('.' :: b :: rest)
  | a :: rest => a :: fixMergedSentence rest
  | [] => []

/-- Regex pass `\s{2,} → ' '` (collapse runs of two or more whitespace
characters into a single space), shared by
`MLEnhancementModel.common_errors` and `NLPProcessor.patterns`. -/
def collapseSpaces : List Char → List Char
  | [] => []
  | [c] => [c]
  | a :: b :: rest =>
    if isPySpace a && isPySpace b then
      ' ' :: collapseSpaces (rest.dropWhile isPySpace)
    else
      a :: collapseSpaces (b :: rest)
termination_by l => l.length
decreasing_by
  · have h := dropWhile_len_le isPySpace rest
    simp only [List.length_cons]
    omega
  · simp only [List.length_cons]
    omega

/-- The `_apply_rule_based_corrections` method of `MLEnhancementModel`:
the five ordered regex passes of `common_errors`, then the non-identity
entries of the character-substitution table (`'0' → 'O'`, a backtick to an
apostrophe, and the two-character sequence `Â´` to an apostrophe); the
identity entries of that table are skipped by the `old != new` guard. -/
def apply_rule_based_corrections (text : String) : String :=
  let t0 := text.data
  let t1 := fixDigitLetter t0
  let t2 := fixLetterDigit t1
  let t3 := fixLowerLtoI t2
  let t4 := fixMergedSentence t3
  let t5 := collapseSpaces t4
  let t6 := strReplace ['0'] ['O'] t5
  let t7 := strReplace ['`'] ['\''] t6
  let t8 := strReplace ['Â', '´'] ['\''] t7
  String.mk t8

/-- The placeholder `_apply_ml_corrections` of the source returns its input
text unchanged and never raises (`none` would model a raised exception). -/
def apply_ml_corrections (text : String) : Option String := some text

/-- The `enhance_text` method of `MLEnhancementModel`.  `initialized`
mirrors `self.initialized`; `mlCorrect` abstracts `_apply_ml_corrections`
(a TensorFlow-backed collaborator in a real deployment), with `none`
modelling a raised exception caught by the `try/except`. -/
def enhance_text (initialized : Bool) (mlCorrect : String → Option String)
    (text : String) (confidence : ℚ) : String × ℚ :=
  if isBlank text then (text, confidence)
  else
    let enhanced_text := apply_rule_based_corrections text
    if initialized ∧ confidence < 85 / 100 then
      match mlCorrect enhanced_text with
      | some t => (t, min 1 (confidence * (115 / 100)))
      | none => (enhanced_text, confidence)
    else
      (enhanced_text, min 1 (confidence * (105 / 100)))

/-- Enhancement tiers returned by
`ImagePreprocessor._determine_enhancement_level`. -/
inductive EnhancementLevel where
  | low
  | medium
  | high
deriving DecidableEq

/-- The `_determine_enhancement_level` method of `ImagePreprocessor`:
strict-threshold decision on the blur (Laplacian variance) and contrast
(intensity standard deviation) metrics. -/
def determine_enhancement_level (blur contrast : ℚ) : EnhancementLevel :=
  if blur > 100 ∧ contrast > 50 then .low
  else if blur > 50 ∧ contrast > 30 then .medium
  else .high

/-- Regex pass `(\d+)\.(\d+) → \1.\2` (entry 1 of `NLPProcessor.patterns`,
"fix decimal numbers"): a maximal digit run, a period, and a maximal digit
run are replaced by the same digit run, period and digit run. -/
def fixDecimal : List Char → List Char
  | [] => []
  | c :: rest =>
    if isDigitChar c then
      if (rest.dropWhile isDigitChar).head? == some '.'
          && isDigitChar (((rest.dropWhile isDigitChar).tail).headD 'x') then
        (c :: rest.takeWhile isDigitChar) ++ '.' ::
          ((rest.dropWhile isDigitChar).tail).takeWhile isDigitChar ++
          fixDecimal (((rest.dropWhile isDigitChar).tail).dropWhile isDigitChar)
      else c :: fixDecimal rest
    else c :: fixDecimal rest
termination_by l => l.length
decreasing_by
  · have h1 := dropWhile_len_le isDigitChar rest
    have h2 := dropWhile_len_le isDigitChar ((rest.dropWhile isDigitChar).tail)
    have h3 : ((rest.dropWhile isDigitChar).tail).length
        ≤ (rest.dropWhile isDigitChar).length := by
      cases rest.dropWhile isDigitChar <;> simp
    simp only [List.length_cons]
    omega
  · simp only [List.length_cons]
    omega
  · simp only [List.length_cons]
    omega

/-- Attempted match of the regex `(\w+)\s+SEP\s+(\w+)` (entries 2 and 3 of
`NLPProcessor.patterns`, with `SEP` the comma or the period) at the head of
`l`; on success returns the replacement `\1SEP \2` and the unconsumed
remainder.  Each `+`-quantified class is matched greedily; greediness is
determinate because the word and whitespace classes are disjoint and
neither contains the separator. -/
def sepSpacingMatch (sep : Char) (l : List Char) : Option (List Char × List Char) :=
  let w1 := l.takeWhile isWordChar
  let r1 := l.dropWhile isWordChar
  let s1 := r1.takeWhile isPySpace
  let r2 := r1.dropWhile isPySpace
  match w1, s1, r2 with
  | _ :: _, _ :: _, c :: r3 =>
    if c == sep then
      let s2 := r3.takeWhile isPySpace
      let r4 := r3.dropWhile isPySpace
      let w2 := r4.takeWhile isWordChar
      match s2, w2 with
      | _ :: _, _ :: _ => some (w1 ++ sep :: ' ' :: w2, r4.dropWhile isWordChar)
      | _, _ => none
    else none
  | _, _, _ => none

/-- On a successful separator-spacing match the remainder is strictly
shorter than the input. -/
def sepSpacingMatch_rem_lt (sep : Char) (l rep rem : List Char)
    (h : sepSpacingMatch sep l = some (rep, rem)) : rem.length < l.length := by
  simp only [sepSpacingMatch] at h
  have h1 := dropWhile_len_le isWordChar l
  have h2 := dropWhile_len_le isPySpace (l.dropWhile isWordChar)
  split at h
  case h_2 => exact absurd h (by simp)
  case h_1 a as b bs c r3 hw hs hr =>
    rw [hr] at h2
    split at h
    case isFalse => exact absurd h (by simp)
    case isTrue c r3 hc =>
      split at h
      case h_2 => exact absurd h (by simp)
      case h_1 y ys z zs hy hz =>
        have h3 := dropWhile_len_le isPySpace r3
        have h4 := dropWhile_len_le isWordChar (r3.dropWhile isPySpace)
        simp only [Option.some.injEq, Prod.mk.injEq] at h
        rw [← h.2]
        simp only [List.length_cons] at h2
        omega

/-- Regex passes 2 and 3 of `NLPProcessor.patterns`
(`(\w+)\s+,\s+(\w+) → \1, \2` and `(\w+)\s+\.\s+(\w+) → \1. \2`): scan left
to right, replacing each match and advancing one character when no match
starts at the current position. -/
def fixSepSpacing (sep : Char) : List Char → List Char
  | [] => []
  | c :: rest =>
    match h : sepSpacingMatch sep (c :: rest) with
    | some (rep, rem) => rep ++ fixSepSpacing sep rem
    | none => c :: fixSepSpacing sep rest
termination_by l => l.length
decreasing_by
  · exact sepSpacingMatch_rem_lt sep (c :: rest) rep rem h
  · simp only [List.length_cons]
    omega

/-- Regex pass `([a-z])([A-Z]) → \1 \2` (entry 5 of `NLPProcessor.patterns`,
"fix missing space between sentences"). -/
def fixRunOnCase : List Char → List Char
  | [] => []
  | [c] => [c]
  | a :: b :: rest =>
    if isLowerAZ a && isUpperAZ b then a :: ' ' :: b :: fixRunOnCase rest
    else a :: fixRunOnCase (b :: rest)

/-- The `_fix_patterns` method of `NLPProcessor`: the five ordered regex
passes of `self.patterns`, each operating on the previous pass's output. -/
def fix_patterns (text : String) : String :=
  String.mk (fixRunOnCase (collapseSpaces (fixSepSpacing '.'
    (fixSepSpacing ',' (fixDecimal text.data)))))

/-- Regex pass `(?<!\n)\n(?!\n) → ' '` of `NLPProcessor._fix_paragraphs`:
a newline whose original neighbours are both not newlines becomes a space.
`prev` is the character preceding the current scan position in the
original string (`none` at the start of the string). -/
def newlineToSpace (prev : Option Char) : List Char → List Char
  | [] => []
  | c :: rest =>
    (if c == '\n' && prev != some '\n' && rest.head? != some '\n'
     then ' ' else c) :: newlineToSpace (some c) rest

/-- Regex pass `\n{3,} → \n\n` of `NLPProcessor._fix_paragraphs`: a maximal
run of three or more newlines collapses to exactly two; shorter runs are
kept. -/
def collapseNewlines : List Char → List Char
  | [] => []
  | c :: rest =>
    if c == '\n' then
      (if 1 + (rest.takeWhile (fun x => x == '\n')).length ≥ 3
       then ['\n', '\n']
       else List.replicate (1 + (rest.takeWhile (fun x => x == '\n')).length) '\n')
      ++ collapseNewlines (rest.dropWhile (fun x => x == '\n'))
    else c :: collapseNewlines rest
termination_by l => l.length
decreasing_by
  · have h := dropWhile_len_le (fun x => x == '\n') rest
    simp only [List.length_cons]
    omega
  · simp only [List.length_cons]
    omega

/-- Character class `[\s•-]` of the bullet-cleanup regex: whitespace, the
bullet marker, or the hyphen. -/
def bulletChar (c : Char) : Bool := isPySpace c || c == '•' || c == '-'

/-- Position of the match of `[\s•-]*(?=•)` at the start of `l` (the
position directly after a newline): the greedy class run backtracks to the
longest prefix whose following character is a bullet, i.e. the index of the
last bullet inside the maximal class run; `none` when the run contains no
bullet (the lookahead can never be satisfied). -/
def lastBulletPos (l : List Char) : Option Nat :=
  let run := l.takeWhile bulletChar
  ((List.range run.length).filter (fun k => run.get? k == some '•')).getLast?

/-- Regex pass `(?<=\n)[\s•-]* (?=•) → ''` (without the space inside the
class, written here to keep the comment readable) of
`NLPProcessor._fix_paragraphs`: directly after each newline, delete the
class run up to (not including) the last bullet marker it precedes. -/
def stripBeforeBullet : List Char → List Char
  | [] => []
  | c :: rest =>
    if c == '\n' then
      match lastBulletPos rest with
      | some j => '\n' :: stripBeforeBullet (rest.drop j)
      | none => '\n' :: stripBeforeBullet rest
    else c :: stripBeforeBullet rest
termination_by l => l.length
decreasing_by
  · simp only [List.length_drop, List.length_cons]
    omega
  · simp only [List.length_cons]
    omega
  · simp only [List.length_cons]
    omega

/-- The `_fix_paragraphs` method of `NLPProcessor`: the three ordered
substitutions (single newline to space, newline-run collapse, bullet
cleanup). -/
def fix_paragraphs (text : String) : String :=
  String.mk (stripBeforeBullet (collapseNewlines (newlineToSpace none text.data)))

/-- The `process_text` method of `NLPProcessor`.  `spacyProc` abstracts the
spaCy-backed `_apply_spacy_processing` collaborator: `none` models spaCy
being unavailable (`self.nlp is None`); `some f` a loaded model, with
`f t = none` modelling a raised exception caught by the `try/except` (the
text of the previous stage is then kept). -/
def process_text (spacyProc : Option (String → Option String)) (text : String) : String :=
  if isBlank text then text
  else
    let processed := fix_patterns text
    let processed :=
      match spacyProc with
      | some f =>
        match f processed with
        | some t => t
        | none => processed
      | none => processed
    fix_paragraphs processed

/-- The `extract_text_from_image` method of `OCRModel`, modelled on the
word-level recognition output `data` (the parallel `text`/`conf` arrays of
`pytesseract.image_to_data`, zipped): join the words with non-blank text
with single spaces; the confidence is the arithmetic mean of the raw
confidences of words with non-blank text and confidence different from
`-1`, divided by 100, or `0.0` when no word qualifies. -/
def extract_text_from_image (data : List (String × ℚ)) : String × ℚ :=
  let full_text := " ".intercalate ((data.map Prod.fst).filter (fun w => !(isBlank w)))
  let confidences := (data.filter (fun p => !(isBlank p.1) && decide (p.2 ≠ -1))).map Prod.snd
  let confidence_score : ℚ :=
    if confidences.isEmpty then 0 else confidences.sum / confidences.length / 100
  (full_text, confidence_score)

/-- A PDF page as seen by `OCRModel.extract_text_from_pdf`: the native text
layer returned by `pdfplumber`'s `page.extract_text()` (`none` models the
Python `None`), and the recognition result `(text, confidence)` the raster
path would produce on the rasterized page (an external collaborator:
`page.to_image()` followed by `extract_text_from_image`). -/
structure PDFPage where
  textLayer : Option String
  ocrResult : String × ℚ

/-- Per-page branch of `OCRModel.extract_text_from_pdf`: a present,
non-blank native text layer is used verbatim with confidence `0.95`;
otherwise the rasterized recognition result is used. -/
def pdfPageResult (page : PDFPage) : String × ℚ :=
  match page.textLayer with
  | some t => if !(isBlank t) then (t, 95 / 100) else page.ocrResult
  | none => page.ocrResult

/-- The `extract_text_from_pdf` method of `OCRModel`: per-page results are
joined by a blank line (`'\n\n'.join`), and the document confidence is the
arithmetic mean of the per-page confidences, or `0.0` for a document with
no pages. -/
def extract_text_from_pdf (pages : List PDFPage) : String × ℚ :=
  let results := pages.map pdfPageResult
  let full_text := "\n\n".intercalate (results.map Prod.fst)
  let avg_confidence : ℚ :=
    if results.isEmpty then 0 else (results.map Prod.snd).sum / results.length
  (full_text, avg_confidence)

/-- Insert a rational into a sorted list (ascending). -/
def insertSorted (a : ℚ) : List ℚ → List ℚ
  | [] => [a]
  | b :: r => if a ≤ b then a :: b :: r else b :: insertSorted a r

/-- Insertion sort, ascending. -/
def sortRats : List ℚ → List ℚ
  | [] => []
  | a :: r => insertSorted a (sortRats r)

/-- The `np.median` of a list of rationals: middle element of the sorted
list for odd length, mean of the two middle elements for even length
(junk value `0` on the empty list, which the source never reaches because
of its `if angles:` guard). -/
def npMedian (l : List ℚ) : ℚ :=
  let s := sortRats l
  if l.length % 2 = 1 then s.getD (l.length / 2) 0
  else (s.getD (l.length / 2 - 1) 0 + s.getD (l.length / 2) 0) / 2

/-- Angle normalization of `ImagePreprocessor.deskew`: a minimum-area
rectangle angle below `-45` degrees has `90` added. -/
def normalizeAngle (a : ℚ) : ℚ := if a < -45 then 90 + a else a

/-- The contour-angle collection loop of `ImagePreprocessor.deskew`:
contours with area below `100` are discarded, the rest contribute their
normalized minimum-area-rectangle angle, in order.  `C` abstracts the
OpenCV contour type, `contourArea` the `cv2.contourArea` call and
`rectAngle` the angle component of `cv2.minAreaRect`. -/
def deskewAngles {C : Type} (contourArea : C → ℚ) (rectAngle : C → ℚ)
    (contours : List C) : List ℚ :=
  (contours.filter (fun c => !(decide (contourArea c < 100)))).map
    (fun c => normalizeAngle (rectAngle c))

/-- The median-angle fallback of `ImagePreprocessor.deskew`: the median of
the collected angles, or `0` when no contour survived the area filter. -/
def medianAngle (angles : List ℚ) : ℚ :=
  if angles.isEmpty then 0 else npMedian angles

/-- Body of the `try` block of `ImagePreprocessor.deskew`: threshold the
grayscale image, find contours, collect filtered normalized angles, take
their median (or `0`), and rotate the input about its center by that
angle.  `Img` abstracts the image type; `threshold`, `findContours` and
`rotate` abstract the OpenCV calls (`cv2.threshold`, `cv2.findContours`,
`cv2.getRotationMatrix2D` + `cv2.warpAffine`), with `Except` modelling a
raised exception. -/
def deskewBody {Img C : Type}
    (threshold : Img → Except Unit Img)
    (findContours : Img → Except Unit (List C))
    (contourArea : C → ℚ) (rectAngle : C → ℚ)
    (rotate : Img → ℚ → Except Unit Img)
    (gray image : Img) : Except Unit Img := do
  let binary ← threshold gray
  let contours ← findContours binary
  rotate image (medianAngle (deskewAngles contourArea rectAngle contours))

/-- The `deskew` method of `ImagePreprocessor`: grayscale conversion
(total, outside the `try`), then the skew-detection/rotation body; any
exception raised inside the body is caught and the input image is returned
unmodified. -/
def deskew {Img C : Type}
    (toGray : Img → Img)
    (threshold : Img → Except Unit Img)
    (findContours : Img → Except Unit (List C))
    (contourArea : C → ℚ) (rectAngle : C → ℚ)
    (rotate : Img → ℚ → Except Unit Img)
    (image : Img) : Img :=
  match deskewBody threshold findContours contourArea rectAngle rotate
      (toGray image) image with
  | .ok rotated => rotated
  | .error _ => image

/-- Index of the last occurrence of `ch` in `l` (Python `str.rfind`),
`none` when absent. -/
def rfindIdx (ch : Char) (l : List Char) : Option Nat :=
  ((List.range l.length).filter (fun i => l.get? i == some ch)).getLast?

/-- Python `os.path.splitext` (posix): split at the last period, except
that periods leading the basename do not start an extension (there must be
a non-period character between the last slash and the split period). -/
def splitext (p : String) : String × String :=
  let l := p.data
  let sepIdx : Int := match rfindIdx '/' l with | some i => (i : Int) | none => -1
  let dotIdx : Int := match rfindIdx '.' l with | some i => (i : Int) | none => -1
  if dotIdx > sepIdx then
    if ((List.range l.length).filter (fun (k : Nat) =>
          decide (sepIdx < (k : Int)) && decide (((k : Nat) : Int) < dotIdx)
            && l.get? k != some '.')).isEmpty
    then (p, "")
    else (String.mk (l.take dotIdx.toNat), String.mk (l.drop dotIdx.toNat))
  else (p, "")

/-- ASCII lowercasing of Python `str.lower()` as applied to file
extensions. -/
def lowerStr (s : String) : String := String.mk (s.data.map Char.toLower)

/-- File kinds of `TextExtractionService._determine_file_type`. -/
inductive FileType where
  | pdf
  | image
  | unknown
deriving DecidableEq

/-- The `_determine_file_type` method of `TextExtractionService`: the
lowercased extension selects `pdf`, one of the six supported image
extensions, or `unknown`. -/
def determine_file_type (file_path : String) : FileType :=
  let ext := lowerStr (splitext file_path).2
  if ext = ".pdf" then .pdf
  else if ext ∈ [".png", ".jpg", ".jpeg", ".bmp", ".tiff", ".gif"] then .image
  else .unknown

/-- The `extract_text` method of `TextExtractionService`.  `pdfResult` and
`imageResult` abstract the outcomes of the `_handle_pdf` / `_handle_image`
dispatch targets (file access, preprocessing and recognition);
`mlPresent` mirrors the truthiness of `self.ml_model`; the remaining
parameters thread through to `enhance_text` and `process_text`.  An
unknown file type returns the sentinel pair immediately, before the
enhancement and NLP stages. -/
def extract_text (pdfResult imageResult : String × ℚ)
    (mlPresent initialized : Bool) (mlCorrect : String → Option String)
    (spacyProc : Option (String → Option String))
    (file_path : String) (enhance : Bool) : String × ℚ :=
  match determine_file_type file_path with
  | .unknown => ("Unsupported file type", 0)
  | ft =>
    let r := if ft = .pdf then pdfResult else imageResult
    let r :=
      if enhance && mlPresent then enhance_text initialized mlCorrect r.1 r.2
      else r
    (process_text spacyProc r.1, r.2)

/-- The corrector-then-normalizer tail of `TextExtractionService
.extract_text` (lines 63–68): ML enhancement followed by NLP processing;
the NLP stage returns only text, so the confidence of the pair is the one
produced by `enhance_text`. -/
def correct_then_normalize (initialized : Bool) (mlCorrect : String → Option String)
    (spacyProc : Option (String → Option String))
    (text : String) (confidence : ℚ) : String × ℚ :=
  let r := enhance_text initialized mlCorrect text confidence
  (process_text spacyProc r.1, r.2)

/-- Positional formalization of the first paragraph rewrite as the spec
states it: a single newline not adjacent to another newline becomes one
space.  Character `i` of the result is a space exactly when the original
character there is a newline and neither original neighbour is one. -/
def specNewlineToSpace (l : List Char) : List Char :=
  (List.range l.length).map (fun i =>
    if l.get? i = some '\n' ∧ ¬(i ≠ 0 ∧ l.get? (i - 1) = some '\n')
        ∧ l.get? (i + 1) ≠ some '\n'
    then ' ' else (l.get? i).getD ' ')

/-- Newlines contributed by a maximal run of `n` newlines after the second
paragraph rewrite: a run of three or more collapses to exactly two, a
shorter run is kept. -/
def emitNewlines (n : Nat) : List Char :=
  if n ≥ 3 then ['\n', '\n'] else List.replicate n '\n'

/-- Run-counting formalization of the second paragraph rewrite: `n` is the
number of newlines read so far in the current run, emitted (collapsed)
when the run ends. -/
def specCollapseAux : Nat → List Char → List Char
  | n, [] => emitNewlines n
  | n, c :: rest =>
    if c == '\n' then specCollapseAux (n + 1) rest
    else emitNewlines n ++ c :: specCollapseAux 0 rest

/-- The second paragraph rewrite written from the spec: every maximal run
of three or more consecutive newlines collapses to exactly two. -/
def specCollapseNewlines (l : List Char) : List Char := specCollapseAux 0 l

/-- The third rewrite exactly as the claim states it: leading whitespace
directly preceding a bullet marker is stripped — directly after a
newline, a whitespace run immediately followed by a bullet is deleted. -/
def specStripLeadingSpace : List Char → List Char
  | [] => []
  | c :: rest =>
    if c == '\n' then
      if rest.get? (rest.takeWhile isPySpace).length = some '•' then
        '\n' :: specStripLeadingSpace (rest.drop (rest.takeWhile isPySpace).length)
      else '\n' :: specStripLeadingSpace rest
    else c :: specStripLeadingSpace rest
termination_by l => l.length
decreasing_by
  · simp only [List.length_drop, List.length_cons]
    omega
  · simp only [List.length_cons]
    omega
  · simp only [List.length_cons]
    omega

/-- The paragraph fix-up exactly as the claim describes its three
rewrites. -/
def specParagraphFixup (text : String) : String :=
  String.mk (specStripLeadingSpace (specCollapseNewlines (specNewlineToSpace text.data)))

/-- The amended third rewrite: directly after each newline, the run of
whitespace, bullet and hyphen characters is deleted up to (not including)
the last bullet marker inside it, when it contains one. -/
def specStripAmended : List Char → List Char
  | [] => []
  | c :: rest =>
    if c == '\n' then
      if '•' ∈ rest.takeWhile bulletChar then
        '\n' :: specStripAmended (rest.drop
          ((rest.takeWhile bulletChar).length - 1
            - ((rest.takeWhile bulletChar).reverse.takeWhile
                (fun x => x != '•')).length))
      else '\n' :: specStripAmended rest
    else c :: specStripAmended rest
termination_by l => l.length
decreasing_by
  · simp only [List.length_drop, List.length_cons]
    omega
  · simp only [List.length_cons]
    omega
  · simp only [List.length_cons]
    omega

/-- The paragraph fix-up as described by the amended claim (third rewrite
widened to the whitespace/bullet/hyphen run up to its last bullet). -/
def specParagraphFixupAmended (text : String) : String :=
  String.mk (specStripAmended (specCollapseNewlines (specNewlineToSpace text.data)))

/-- Helper: the confidence component produced by `enhance_text` stays in
the unit interval whenever the incoming confidence is in it. -/
theorem enhance_text_conf_bounds (initialized : Bool)
    (mlCorrect : String → Option String) (text : String) (c : ℚ)
    (h0 : 0 ≤ c) (h1 : c ≤ 1) :
    0 ≤ (enhance_text initialized mlCorrect text c).2
    ∧ (enhance_text initialized mlCorrect text c).2 ≤ 1 := by
  simp only [enhance_text]
  split_ifs with hb hg
  · exact ⟨h0, h1⟩
  · cases hml : mlCorrect (apply_rule_based_corrections text) with
    | some t =>
      refine ⟨le_min (by norm_num) (by positivity), min_le_left _ _⟩
    | none => exact ⟨h0, h1⟩
  · exact ⟨le_min (by norm_num) (by positivity), min_le_left _ _⟩

/-- C1: for every input text and every starting confidence in `[0, 1]`,
running the corrector (`enhance_text`: Step A pattern rules plus Step B
confidence adjustment) followed by the normalizer (`process_text`) yields
a confidence that is still in `[0, 1]`, for every Step B branch (ML
branch, rule-based boost, or empty-text short-circuit). -/
theorem pipeline_confidence_in_unit_interval
    (initialized : Bool) (mlCorrect : String → Option String)
    (spacyProc : Option (String → Option String)) (text : String) (c : ℚ)
    (h0 : 0 ≤ c) (h1 : c ≤ 1) :
    0 ≤ (correct_then_normalize initialized mlCorrect spacyProc text c).2
    ∧ (correct_then_normalize initialized mlCorrect spacyProc text c).2 ≤ 1 := by
  simp only [correct_then_normalize]
  exact enhance_text_conf_bounds initialized mlCorrect text c h0 h1

/-- Witness for C1 at text `"ab"` and confidence `1/2`. -/
theorem pipeline_confidence_in_unit_interval_witness :
    (0:ℚ) ≤ 1/2 ∧ (1/2:ℚ) ≤ 1
    ∧ (0 ≤ (correct_then_normalize true apply_ml_corrections none "ab" (1/2)).2
       ∧ (correct_then_normalize true apply_ml_corrections none "ab" (1/2)).2 ≤ 1) :=
  ⟨by norm_num, by norm_num,
    pipeline_confidence_in_unit_interval true apply_ml_corrections none "ab" (1/2)
      (by norm_num) (by norm_num)⟩

/-- C2: tier selection is a strict-threshold decision: Low iff
`blur > 100 ∧ contrast > 50`, Medium iff that fails and
`blur > 50 ∧ contrast > 30`, High otherwise; at the boundary
`blur = 100`, `contrast = 50` the tier is Medium, not Low. -/
theorem tier_selection_strict_thresholds :
    (∀ blur contrast : ℚ,
      (determine_enhancement_level blur contrast = .low ↔
        blur > 100 ∧ contrast > 50)
      ∧ (determine_enhancement_level blur contrast = .medium ↔
          ¬(blur > 100 ∧ contrast > 50) ∧ blur > 50 ∧ contrast > 30)
      ∧ (determine_enhancement_level blur contrast = .high ↔
          ¬(blur > 100 ∧ contrast > 50) ∧ ¬(blur > 50 ∧ contrast > 30)))
    ∧ determine_enhancement_level 100 50 = .medium := by
  constructor
  · intro b c
    refine ⟨?_, ?_, ?_⟩ <;>
      · simp only [determine_enhancement_level]
        split_ifs with h1 h2 <;> simp_all
  · simp only [determine_enhancement_level]
    norm_num

/-- C3: the raster path joins the non-blank word texts with single spaces,
and its confidence is the mean of the raw confidences of words with
non-blank text and confidence different from `-1`, divided by `100`, or
`0.0` when no word qualifies; the word list
`[("Hello", 90), ("", -1), ("World", 80)]` yields text `"Hello World"` and
confidence `0.85`. -/
theorem raster_word_aggregation :
    (∀ data : List (String × ℚ),
      (extract_text_from_image data).1
        = " ".intercalate ((data.map Prod.fst).filter (fun w => !(isBlank w)))
      ∧ (data.filter (fun p => !(isBlank p.1) && decide (p.2 ≠ -1)) = [] →
          (extract_text_from_image data).2 = 0)
      ∧ (data.filter (fun p => !(isBlank p.1) && decide (p.2 ≠ -1)) ≠ [] →
          (extract_text_from_image data).2
            = ((data.filter (fun p => !(isBlank p.1) && decide (p.2 ≠ -1))).map
                Prod.snd).sum
              / ((data.filter (fun p => !(isBlank p.1) && decide (p.2 ≠ -1))).length)
              / 100))
    ∧ extract_text_from_image [("Hello", 90), ("", -1), ("World", 80)]
        = ("Hello World", 85/100) := by
  constructor
  · intro data
    refine ⟨rfl, ?_, ?_⟩
    · intro h
      simp only [extract_text_from_image, h]
      simp
    · intro h
      have h' : ((data.filter (fun p => !(isBlank p.1) && decide (p.2 ≠ -1))).map
          Prod.snd).isEmpty = false := by
        cases hl : data.filter (fun p => !(isBlank p.1) && decide (p.2 ≠ -1)) with
        | nil => exact absurd hl h
        | cons a l => rfl
      simp only [extract_text_from_image, h', Bool.false_eq_true, if_false]
      simp [List.length_map]
  · have hf : ([(("Hello":String), (90:ℚ)), ("", -1), ("World", 80)].filter
        (fun p => !(isBlank p.1) && decide (p.2 ≠ -1)))
        = [("Hello", 90), ("World", 80)] := by decide
    rw [Prod.ext_iff]
    constructor
    · decide
    · simp only [extract_text_from_image, hf]
      simp
      norm_num

/-- Witness for C3: the filtered word list of the concrete example is
nonempty, and the theorem's mean formula evaluates there. -/
theorem raster_word_aggregation_witness :
    ([(("Hello":String), (90:ℚ)), ("", -1), ("World", 80)].filter
        (fun p => !(isBlank p.1) && decide (p.2 ≠ -1))) ≠ []
    ∧ (extract_text_from_image [("Hello", 90), ("", -1), ("World", 80)]).2
        = (([(("Hello":String), (90:ℚ)), ("", -1), ("World", 80)].filter
              (fun p => !(isBlank p.1) && decide (p.2 ≠ -1))).map Prod.snd).sum
          / (([(("Hello":String), (90:ℚ)), ("", -1), ("World", 80)].filter
              (fun p => !(isBlank p.1) && decide (p.2 ≠ -1))).length)
          / 100 :=
  ⟨by decide,
    (raster_word_aggregation.1 [("Hello", 90), ("", -1), ("World", 80)]).2.2
      (by decide)⟩

/-- C4: a PDF page with a present, non-blank native text layer yields that
text verbatim with confidence exactly `0.95`, independently of the
recognition result on the rasterized page; the document text is the pages
joined by a blank line and the document confidence the mean of the
per-page confidences, or `0.0` without pages. -/
theorem pdf_native_text_layer
    (pages : List PDFPage) (t : String) (o o' : String × ℚ)
    (ht : isBlank t = false) :
    (pdfPageResult ⟨some t, o⟩ = (t, 95/100)
      ∧ pdfPageResult ⟨some t, o⟩ = pdfPageResult ⟨some t, o'⟩)
    ∧ (extract_text_from_pdf pages).1
        = "\n\n".intercalate ((pages.map pdfPageResult).map Prod.fst)
    ∧ (pages = [] → (extract_text_from_pdf pages).2 = 0)
    ∧ (pages ≠ [] →
        (extract_text_from_pdf pages).2
          = ((pages.map pdfPageResult).map Prod.snd).sum / (pages.length)) := by
  refine ⟨⟨?_, ?_⟩, rfl, ?_, ?_⟩
  · simp [pdfPageResult, ht]
  · simp [pdfPageResult, ht]
  · intro h
    subst h
    simp [extract_text_from_pdf]
  · intro h
    simp only [extract_text_from_pdf, List.isEmpty_iff, List.map_eq_nil]
    rw [if_neg (by simpa using h)]
    simp

/-- Witness for C4 on the page whose native layer is `"Hi"`: the native
text is used verbatim at confidence `0.95`, whatever the raster result. -/
theorem pdf_native_text_layer_witness :
    isBlank "Hi" = false
    ∧ pdfPageResult ⟨some "Hi", ("x", 1/2)⟩ = ("Hi", 95/100)
    ∧ pdfPageResult ⟨some "Hi", ("x", 1/2)⟩ = pdfPageResult ⟨some "Hi", ("y", 0)⟩ :=
  ⟨by decide,
    (pdf_native_text_layer [] "Hi" ("x", 1/2) ("y", 0) (by decide)).1.1,
    (pdf_native_text_layer [] "Hi" ("x", 1/2) ("y", 0) (by decide)).1.2⟩

/-- C5: Step B is confidence-gated: with the capability available and
confidence below `0.85`, the resulting confidence is at most the incoming
confidence times `1.15` clamped to `1.0`, and on internal model failure
the Step A-corrected text is kept with confidence unchanged; otherwise
the confidence becomes `min(1.0, confidence * 1.05)` with no further text
change.  Starting confidence `0.5` with enhancement available gives at
most `0.575`; starting confidence `0.9` gives at most `0.945` with the ML
branch not triggered. -/
theorem stepB_confidence_gating
    (initialized : Bool) (mlCorrect : String → Option String)
    (text : String) (c : ℚ)
    (hb : isBlank text = false) (h0 : 0 ≤ c) (h1 : c ≤ 1) :
    (initialized = true ∧ c < 85/100 →
      (enhance_text initialized mlCorrect text c).2 ≤ min 1 (c * (115/100))
      ∧ (mlCorrect (apply_rule_based_corrections text) = none →
          enhance_text initialized mlCorrect text c
            = (apply_rule_based_corrections text, c)))
    ∧ (initialized = false ∨ 85/100 ≤ c →
        enhance_text initialized mlCorrect text c
          = (apply_rule_based_corrections text, min 1 (c * (105/100))))
    ∧ (initialized = true ∧ c = 1/2 →
        (enhance_text initialized mlCorrect text c).2 ≤ 575/1000)
    ∧ (c = 9/10 →
        enhance_text initialized mlCorrect text c
          = (apply_rule_based_corrections text, min 1 ((9/10) * (105/100)))
        ∧ (enhance_text initialized mlCorrect text c).2 ≤ 945/1000) := by
  have hml : ∀ hc : initialized = true ∧ c < 85/100,
      (enhance_text initialized mlCorrect text c).2 ≤ min 1 (c * (115/100))
      ∧ (mlCorrect (apply_rule_based_corrections text) = none →
          enhance_text initialized mlCorrect text c
            = (apply_rule_based_corrections text, c)) := by
    intro hc
    simp only [enhance_text, hb, Bool.false_eq_true, if_false]
    rw [if_pos (by exact ⟨hc.1, hc.2⟩)]
    cases hm : mlCorrect (apply_rule_based_corrections text) with
    | some t => exact ⟨le_refl _, by simp⟩
    | none =>
      refine ⟨le_min h1 (by nlinarith), fun _ => rfl⟩
  refine ⟨hml, ?_, ?_, ?_⟩
  · intro hc
    simp only [enhance_text, hb, Bool.false_eq_true, if_false]
    rw [if_neg]
    rcases hc with h | h
    · simp [h]
    · rintro ⟨-, hlt⟩
      linarith
  · rintro ⟨hi, hc⟩
    have := (hml ⟨hi, by rw [hc]; norm_num⟩).1
    calc (enhance_text initialized mlCorrect text c).2
        ≤ min 1 (c * (115/100)) := this
      _ ≤ c * (115/100) := min_le_right _ _
      _ ≤ 575/1000 := by rw [hc]; norm_num
  · intro hc
    have h9 : ¬(initialized = true ∧ c < 85/100) := by
      rintro ⟨-, hlt⟩
      rw [hc] at hlt
      norm_num at hlt
    constructor
    · simp only [enhance_text, hb, Bool.false_eq_true, if_false]
      rw [if_neg (by exact_mod_cast h9), hc]
    · simp only [enhance_text, hb, Bool.false_eq_true, if_false]
      rw [if_neg (by exact_mod_cast h9)]
      simp only
      calc min 1 (c * (105/100)) ≤ c * (105/100) := min_le_right _ _
        _ ≤ 945/1000 := by rw [hc]; norm_num

/-- Witness for C5 at text `"ab"`, confidence `1/2`, capability available
with the source's placeholder correction. -/
theorem stepB_confidence_gating_witness :
    isBlank "ab" = false ∧ (0:ℚ) ≤ 1/2 ∧ (1/2:ℚ) ≤ 1
    ∧ ((enhance_text true apply_ml_corrections "ab" (1/2)).2
        ≤ min 1 ((1/2) * (115/100))
       ∧ (enhance_text true apply_ml_corrections "ab" (1/2)).2 ≤ 575/1000) :=
  ⟨by decide, by norm_num, by norm_num,
    ((stepB_confidence_gating true apply_ml_corrections "ab" (1/2)
        (by decide) (by norm_num) (by norm_num)).1 ⟨rfl, by norm_num⟩).1,
    (stepB_confidence_gating true apply_ml_corrections "ab" (1/2)
        (by decide) (by norm_num) (by norm_num)).2.2.1 ⟨rfl, rfl⟩⟩

/-- C7: empty or whitespace-only text passes through the corrector
unchanged (text and confidence) and through the normalizer unchanged. -/
theorem blank_text_short_circuit
    (initialized : Bool) (mlCorrect : String → Option String)
    (spacyProc : Option (String → Option String)) (text : String) (c : ℚ)
    (h : isBlank text = true) :
    enhance_text initialized mlCorrect text c = (text, c)
    ∧ process_text spacyProc text = text := by
  constructor
  · simp [enhance_text, h]
  · simp [process_text, h]

/-- Witness for C7 at the whitespace-only text of two spaces. -/
theorem blank_text_short_circuit_witness :
    isBlank "  " = true
    ∧ enhance_text true apply_ml_corrections "  " (7/10) = ("  ", 7/10)
    ∧ process_text none "  " = "  " :=
  ⟨by decide,
    (blank_text_short_circuit true apply_ml_corrections none "  " (7/10)
      (by decide)).1,
    (blank_text_short_circuit true apply_ml_corrections none "  " (7/10)
      (by decide)).2⟩

/-- C6: a file path whose lowercased extension is neither `.pdf` nor a
supported image extension makes `extract_text` return exactly
`("Unsupported file type", 0.0)`, independently of the handler results,
the enhancement flag and the ML/NLP collaborators (they are never
invoked). -/
theorem unsupported_extension_sentinel
    (pdfResult imageResult pdfResult' imageResult' : String × ℚ)
    (mlPresent initialized mlPresent' initialized' : Bool)
    (mlCorrect mlCorrect' : String → Option String)
    (spacyProc spacyProc' : Option (String → Option String))
    (file_path : String) (enhance enhance' : Bool)
    (h : lowerStr (splitext file_path).2 ∉
        ([".pdf", ".png", ".jpg", ".jpeg", ".bmp", ".tiff", ".gif"] : List String)) :
    extract_text pdfResult imageResult mlPresent initialized mlCorrect spacyProc
        file_path enhance = ("Unsupported file type", 0)
    ∧ extract_text pdfResult imageResult mlPresent initialized mlCorrect spacyProc
        file_path enhance
      = extract_text pdfResult' imageResult' mlPresent' initialized' mlCorrect'
          spacyProc' file_path enhance' := by
  have hu : determine_file_type file_path = .unknown := by
    simp only [determine_file_type]
    split_ifs with h1 h2
    · exact absurd (by rw [h1]; simp) h
    · exact absurd (List.mem_cons_of_mem _ h2) h
    · rfl
  constructor
  · simp only [extract_text, hu]
  · simp only [extract_text, hu]

/-- Witness for C6 at the path `"file.docx"`. -/
theorem unsupported_extension_sentinel_witness :
    lowerStr (splitext "file.docx").2 ∉
        ([".pdf", ".png", ".jpg", ".jpeg", ".bmp", ".tiff", ".gif"] : List String)
    ∧ extract_text ("p", 1/2) ("i", 1/2) true true apply_ml_corrections none
        "file.docx" true = ("Unsupported file type", 0) :=
  ⟨by decide,
    (unsupported_extension_sentinel ("p", 1/2) ("i", 1/2) ("p", 1/2) ("i", 1/2)
      true true true true apply_ml_corrections apply_ml_corrections none none
      "file.docx" true true (by decide)).1⟩

/-- C8: the deskew stage is non-fatal and atomic: when any step of the
skew-detection/rotation body raises, `deskew` returns its input image
verbatim; the only other outcome is the fully rotated image produced by
the rotation call; and when no contour of area at least `100` survives
the filter, the collected angle list is empty and the rotation angle
defaults to `0`. -/
theorem deskew_nonfatal_atomic (Img C : Type)
    (toGray : Img → Img) (threshold : Img → Except Unit Img)
    (findContours : Img → Except Unit (List C)) (contourArea rectAngle : C → ℚ)
    (rotate : Img → ℚ → Except Unit Img) (image : Img) (contours : List C) :
    (∀ e, deskewBody threshold findContours contourArea rectAngle rotate
          (toGray image) image = .error e →
        deskew toGray threshold findContours contourArea rectAngle rotate image
          = image)
    ∧ (deskew toGray threshold findContours contourArea rectAngle rotate image
          = image
       ∨ ∃ r, deskewBody threshold findContours contourArea rectAngle rotate
            (toGray image) image = .ok r
          ∧ deskew toGray threshold findContours contourArea rectAngle rotate image
              = r)
    ∧ ((∀ c ∈ contours, contourArea c < 100) →
        deskewAngles contourArea rectAngle contours = []
        ∧ medianAngle (deskewAngles contourArea rectAngle contours) = 0) := by
  refine ⟨?_, ?_, ?_⟩
  · intro e he
    simp only [deskew, he]
  · cases hb : deskewBody threshold findContours contourArea rectAngle rotate
        (toGray image) image with
    | ok r => exact Or.inr ⟨r, rfl, by simp only [deskew, hb]⟩
    | error e => exact Or.inl (by simp only [deskew, hb])
  · intro hsmall
    have hnil : deskewAngles contourArea rectAngle contours = [] := by
      simp only [deskewAngles, List.map_eq_nil_iff, List.filter_eq_nil]
      intro c hc
      simp [hsmall c hc]
    exact ⟨hnil, by simp [medianAngle, hnil]⟩

/-- Witness for C8: with a failing threshold collaborator the input image
(concretely `Unit`) is returned, and a lone contour of area `50` leaves
the angle list empty with median angle `0`. -/
theorem deskew_nonfatal_atomic_witness :
    deskewBody (fun _ => (Except.error () : Except Unit Unit))
        (fun _ => (Except.error () : Except Unit (List Unit)))
        (fun _ => (50:ℚ)) (fun _ => (0:ℚ)) (fun _ _ => Except.error ()) () ()
      = Except.error ()
    ∧ deskew (fun u => u) (fun _ => (Except.error () : Except Unit Unit))
        (fun _ => (Except.error () : Except Unit (List Unit)))
        (fun _ => (50:ℚ)) (fun _ => (0:ℚ)) (fun _ _ => Except.error ()) () = ()
    ∧ medianAngle (deskewAngles (fun (_ : Unit) => (50:ℚ)) (fun _ => (0:ℚ)) [()])
        = 0 :=
  ⟨rfl,
    (deskew_nonfatal_atomic Unit Unit (fun u => u)
      (fun _ => Except.error ()) (fun _ => Except.error ())
      (fun _ => (50:ℚ)) (fun _ => (0:ℚ)) (fun _ _ => Except.error ()) () [()]).1
      () rfl,
    ((deskew_nonfatal_atomic Unit Unit (fun u => u)
      (fun _ => Except.error ()) (fun _ => Except.error ())
      (fun _ => (50:ℚ)) (fun _ => (0:ℚ)) (fun _ _ => Except.error ()) () [()]).2.2
      (by intro c hc; norm_num)).2⟩

/-- Helper for C10: the decimal-number regex pass replaces every match by
the exact text it matched, so it returns every input unchanged. -/
theorem fixDecimal_eq_self (l : List Char) : fixDecimal l = l := by
  induction l using fixDecimal.induct with
  | case1 => rw [fixDecimal]
  | case2 c rest hd hcond ih =>
    have h1 : (List.dropWhile isDigitChar rest).head? = some '.' := by
      have hb := (Bool.and_eq_true _ _ |>.mp hcond).1
      simpa using hb
    have h2 : List.dropWhile isDigitChar rest
        = '.' :: (List.dropWhile isDigitChar rest).tail := by
      cases hdw : List.dropWhile isDigitChar rest with
      | nil => rw [hdw] at h1; simp at h1
      | cons a t =>
        rw [hdw] at h1
        simp only [List.head?_cons, Option.some.injEq] at h1
        rw [h1]
        rfl
    rw [fixDecimal.eq_def]
    simp only [hd, if_true]
    rw [if_pos hcond, ih]
    conv_rhs => rw [show rest
        = List.takeWhile isDigitChar rest ++ List.dropWhile isDigitChar rest from
        (List.takeWhile_append_dropWhile isDigitChar rest).symm]
    conv_rhs => rw [h2]
    conv_rhs => rw [show (List.dropWhile isDigitChar rest).tail
        = List.takeWhile isDigitChar ((List.dropWhile isDigitChar rest).tail)
          ++ List.dropWhile isDigitChar ((List.dropWhile isDigitChar rest).tail) from
        (List.takeWhile_append_dropWhile isDigitChar _).symm]
    simp [List.append_assoc]
  | case3 c rest hd hncond ih =>
    rw [fixDecimal.eq_def]
    simp only [hd, if_true]
    rw [if_neg hncond, ih]
  | case4 c rest hnd ih =>
    rw [fixDecimal.eq_def]
    simp only [hnd]
    rw [if_neg (by simp), ih]

/-- C10: the normalizer's first fixed pattern pass (the decimal-number
spacing rule substituting `(\d+)\.(\d+)` with `\1.\2`) is the identity on
every input, so `_fix_patterns` equals the composition of the remaining
four passes alone. -/
theorem decimal_rule_identity :
    (∀ l : List Char, fixDecimal l = l)
    ∧ ∀ s : String, fix_patterns s
        = String.mk (fixRunOnCase (collapseSpaces (fixSepSpacing '.'
            (fixSepSpacing ',' s.data)))) := by
  refine ⟨fixDecimal_eq_self, fun s => ?_⟩
  simp only [fix_patterns, fixDecimal_eq_self]

/-- Helper for C9: the scanner of the first paragraph rewrite agrees with
its positional description, for an arbitrary character preceding the scan
window. -/
theorem newlineToSpace_eq_aux (l : List Char) : ∀ (prev : Option Char),
    newlineToSpace prev l = (List.range l.length).map (fun i =>
      if l.get? i = some '\n' ∧ (if i = 0 then prev else l.get? (i - 1)) ≠ some '\n'
          ∧ l.get? (i + 1) ≠ some '\n'
      then ' ' else (l.get? i).getD ' ') := by
  induction l with
  | nil => intro prev; simp [newlineToSpace]
  | cons c rest ih =>
    intro prev
    rw [newlineToSpace]
    rw [List.length_cons, List.range_succ_eq_map, List.map_cons, List.map_map]
    congr 1
    · simp only [List.get?_cons_zero, List.get?_cons_succ, if_pos rfl,
        Option.some.injEq, Option.getD_some, ← List.get?_zero]
      by_cases hc : c = '\n' <;>
        by_cases hp : prev = some '\n' <;>
          by_cases hn : rest.get? 0 = some '\n' <;>
            simp_all [bne_iff_ne, beq_iff_eq]
    · rw [ih (some c)]
      apply List.map_congr_left
      intro i _
      simp only [Function.comp]
      cases i with
      | zero =>
        simp [List.get?_cons_zero, List.get?_cons_succ]
      | succ k =>
        simp [List.get?_cons_succ]
/-- Helper for C9: the first paragraph rewrite equals its spec-side
positional description. -/
theorem newlineToSpace_eq_spec (l : List Char) :
    newlineToSpace none l = specNewlineToSpace l := by
  rw [newlineToSpace_eq_aux l none, specNewlineToSpace]
  apply List.map_congr_left
  intro i _
  apply if_congr ?_ rfl rfl
  by_cases h : i = 0 <;> simp [h]

/-- Helper: takeWhile over a newline run keeps it whole. -/
theorem takeWhile_newline_replicate (n : Nat) :
    (List.replicate n '\n').takeWhile (fun x => x == '\n') = List.replicate n '\n' := by
  induction n with
  | zero => rfl
  | succ m ih => simp [List.replicate_succ, List.takeWhile_cons, ih]

/-- Helper: dropWhile over a newline run exhausts it. -/
theorem dropWhile_newline_replicate (n : Nat) :
    (List.replicate n '\n').dropWhile (fun x => x == '\n') = [] := by
  induction n with
  | zero => rfl
  | succ m ih => simp [List.replicate_succ, List.dropWhile_cons, ih]

/-- Helper: takeWhile over a newline run stops at a non-newline. -/
theorem takeWhile_newline_replicate_append (n : Nat) (c : Char) (l : List Char)
    (hc : ¬c = '\n') :
    (List.replicate n '\n' ++ c :: l).takeWhile (fun x => x == '\n')
      = List.replicate n '\n' := by
  induction n with
  | zero => simp [List.takeWhile_cons, hc]
  | succ m ih => simp [List.replicate_succ, List.takeWhile_cons, ih]

/-- Helper: dropWhile over a newline run stops at a non-newline. -/
theorem dropWhile_newline_replicate_append (n : Nat) (c : Char) (l : List Char)
    (hc : ¬c = '\n') :
    (List.replicate n '\n' ++ c :: l).dropWhile (fun x => x == '\n') = c :: l := by
  induction n with
  | zero => simp [List.dropWhile_cons, hc]
  | succ m ih => simp [List.replicate_succ, List.dropWhile_cons, ih]

/-- Helper: the newline-collapse scanner on a pure newline run emits the
collapsed run. -/
theorem collapseNewlines_replicate (n : Nat) :
    collapseNewlines (List.replicate n '\n') = emitNewlines n := by
  cases n with
  | zero =>
    rw [collapseNewlines.eq_def]
    rfl
  | succ m =>
    rw [List.replicate_succ, collapseNewlines.eq_def]
    simp only [beq_self_eq_true, if_true, takeWhile_newline_replicate,
      dropWhile_newline_replicate, List.length_replicate]
    rw [collapseNewlines.eq_def]
    simp only [List.append_nil]
    rw [emitNewlines, Nat.add_comm 1 m]

/-- Helper for C9: the run-counting spec formulation with `n` pending
newlines agrees with the scanner run on those newlines prepended. -/
theorem specCollapseAux_eq (l : List Char) : ∀ n : Nat,
    specCollapseAux n l = collapseNewlines (List.replicate n '\n' ++ l) := by
  induction l with
  | nil =>
    intro n
    rw [specCollapseAux, List.append_nil, collapseNewlines_replicate]
  | cons c rest ih =>
    intro n
    by_cases hc : c = '\n'
    · subst hc
      rw [specCollapseAux]
      simp only [beq_self_eq_true, if_true]
      rw [ih (n + 1)]
      congr 1
      rw [List.replicate_succ' (n := n), List.append_assoc]
      rfl
    · rw [specCollapseAux]
      rw [if_neg (by simpa using hc)]
      rw [ih 0]
      rw [show List.replicate 0 '\n' ++ rest = rest from by simp]
      cases n with
      | zero =>
        rw [show List.replicate 0 '\n' ++ (c :: rest) = c :: rest from by simp]
        conv_rhs => rw [collapseNewlines.eq_def]
        simp only [if_neg (show ¬(c == '\n') = true by simpa using hc)]
        rw [emitNewlines]
        simp
      | succ m =>
        rw [List.replicate_succ, List.cons_append]
        conv_rhs => rw [collapseNewlines.eq_def]
        simp only [beq_self_eq_true, if_true,
          takeWhile_newline_replicate_append m c rest hc,
          dropWhile_newline_replicate_append m c rest hc, List.length_replicate]
        conv_rhs => rw [collapseNewlines.eq_def]
        simp only [if_neg (show ¬(c == '\n') = true by simpa using hc)]
        rw [emitNewlines, Nat.add_comm 1 m]

/-- Helper for C9: the second paragraph rewrite equals its spec-side
run-counting description. -/
theorem collapseNewlines_eq_spec (l : List Char) :
    collapseNewlines l = specCollapseNewlines l := by
  rw [specCollapseNewlines, specCollapseAux_eq l 0]
  rfl
/-- Helper for C9: the greedy backtracking search for the longest class
prefix followed by a bullet (the last index of the filtered range) finds
the position of the last bullet, counted from the right. -/
theorem lastBullet_getLast (r : List Char) :
    ((List.range r.length).filter (fun k => r.get? k == some '•')).getLast?
      = if '•' ∈ r
        then some (r.length - 1 - (r.reverse.takeWhile (fun x => x != '•')).length)
        else none := by
  induction r using List.reverseRecOn with
  | nil => simp
  | append_singleton l a ih =>
    have hlen : (l ++ [a]).length = l.length + 1 := by simp
    rw [hlen, List.range_succ, List.filter_append]
    have hfc : (List.range l.length).filter (fun k => (l ++ [a]).get? k == some '•')
        = (List.range l.length).filter (fun k => l.get? k == some '•') := by
      apply List.filter_congr
      intro k hk
      rw [List.get?_append (List.mem_range.mp hk)]
    rw [hfc]
    by_cases ha : a = '•'
    · subst ha
      have hf1 : List.filter (fun k => (l ++ ['•']).get? k == some '•') [l.length]
          = [l.length] := by
        simp [List.get?_concat_length]
      rw [hf1, List.getLast?_concat]
      rw [if_pos (by simp)]
      simp only [List.reverse_append, List.reverse_singleton, List.singleton_append,
        List.takeWhile_cons]
      simp
    · have hf0 : List.filter (fun k => (l ++ [a]).get? k == some '•') [l.length]
          = [] := by
        simp [List.get?_concat_length, ha]
      rw [hf0, List.append_nil, ih]
      have hmem : ('•' ∈ l ++ [a]) ↔ '•' ∈ l := by
        simp [List.mem_append]
        intro hx
        exact absurd hx.symm ha
      by_cases hl : '•' ∈ l
      · rw [if_pos hl, if_pos (hmem.mpr hl)]
        simp only [List.reverse_append, List.reverse_singleton, List.singleton_append,
          List.takeWhile_cons]
        rw [if_pos (show (a != '•') = true by simpa using ha)]
        simp only [List.length_cons]
        congr 1
        omega
      · rw [if_neg hl, if_neg (by rw [hmem]; exact hl)]

/-- Helper for C9: `lastBulletPos` in terms of the last bullet inside the
maximal class run. -/
theorem lastBulletPos_eq (l : List Char) :
    lastBulletPos l
      = if '•' ∈ l.takeWhile bulletChar
        then some ((l.takeWhile bulletChar).length - 1
          - ((l.takeWhile bulletChar).reverse.takeWhile (fun x => x != '•')).length)
        else none := by
  rw [lastBulletPos]
  exact lastBullet_getLast (l.takeWhile bulletChar)
/-- Helper for C9: the bullet-cleanup scanner equals the amended
description (class run deleted up to its last bullet). -/
theorem stripBeforeBullet_eq_specAmended (l : List Char) :
    stripBeforeBullet l = specStripAmended l := by
  induction l using stripBeforeBullet.induct with
  | case1 =>
    rw [stripBeforeBullet.eq_def, specStripAmended.eq_def]
  | case2 c rest hc j hj ih =>
    have h' := hj
    rw [lastBulletPos_eq] at h'
    by_cases hm : '•' ∈ rest.takeWhile bulletChar
    · rw [if_pos hm] at h'
      have hjeq : (rest.takeWhile bulletChar).length - 1
          - ((rest.takeWhile bulletChar).reverse.takeWhile (fun x => x != '•')).length
          = j := by
        injection h'
      conv_lhs => rw [stripBeforeBullet.eq_def]
      conv_rhs => rw [specStripAmended.eq_def]
      simp only [hc, if_true, hj, if_pos hm, hjeq]
      rw [ih]
    · rw [if_neg hm] at h'
      exact absurd h' (by simp)
  | case3 c rest hc hn ih =>
    have h' := hn
    rw [lastBulletPos_eq] at h'
    by_cases hm : '•' ∈ rest.takeWhile bulletChar
    · rw [if_pos hm] at h'
      exact absurd h' (by simp)
    · conv_lhs => rw [stripBeforeBullet.eq_def]
      conv_rhs => rw [specStripAmended.eq_def]
      simp only [hc, if_true, hn, if_neg hm]
      rw [ih]
  | case4 c rest hc ih =>
    conv_lhs => rw [stripBeforeBullet.eq_def]
    conv_rhs => rw [specStripAmended.eq_def]
    simp only [if_neg hc]
    rw [ih]
/-- C9 counterexample: on `"\n\n-\u2022a"` the source fix-up deletes the
newline and hyphen standing between the first newline and the bullet,
because the regex class of the third substitution is `[\s\u2022-]`; the
claim describes the third rewrite as stripping whitespace only, which
leaves this input unchanged, so the claim is not exact. -/
theorem paragraph_fixup_claim_counterexample :
    fix_paragraphs "\n\n-•a" = "\n•a"
    ∧ specParagraphFixup "\n\n-•a" = "\n\n-•a"
    ∧ fix_paragraphs "\n\n-•a" ≠ specParagraphFixup "\n\n-•a" := by
  have hn : newlineToSpace none ("\n\n-•a").data = ['\n', '\n', '-', '•', 'a'] := by
    decide
  have b1 : collapseNewlines ['\n', '\n', '-', '•', 'a']
      = ['\n', '\n'] ++ collapseNewlines ['-', '•', 'a'] := by
    rw [collapseNewlines.eq_def]; rfl
  have b2 : collapseNewlines ['-', '•', 'a'] = '-' :: collapseNewlines ['•', 'a'] := by
    rw [collapseNewlines.eq_def]; rfl
  have b3 : collapseNewlines ['•', 'a'] = '•' :: collapseNewlines ['a'] := by
    rw [collapseNewlines.eq_def]; rfl
  have b4 : collapseNewlines ['a'] = 'a' :: collapseNewlines [] := by
    rw [collapseNewlines.eq_def]; rfl
  have b5 : collapseNewlines ([] : List Char) = [] := by
    rw [collapseNewlines.eq_def]
  have hb : collapseNewlines ['\n', '\n', '-', '•', 'a'] = ['\n', '\n', '-', '•', 'a'] := by
    rw [b1, b2, b3, b4, b5]
    rfl
  have s1 : stripBeforeBullet ['\n', '\n', '-', '•', 'a']
      = '\n' :: stripBeforeBullet ['•', 'a'] := by
    rw [stripBeforeBullet.eq_def]; rfl
  have s2 : stripBeforeBullet ['•', 'a'] = '•' :: stripBeforeBullet ['a'] := by
    rw [stripBeforeBullet.eq_def]; rfl
  have s3 : stripBeforeBullet ['a'] = 'a' :: stripBeforeBullet [] := by
    rw [stripBeforeBullet.eq_def]; rfl
  have s4 : stripBeforeBullet ([] : List Char) = [] := by
    rw [stripBeforeBullet.eq_def]
  have hcode : fix_paragraphs "\n\n-•a" = "\n•a" := by
    rw [fix_paragraphs, hn, hb, s1, s2, s3, s4]
  have hc : specCollapseNewlines ['\n', '\n', '-', '•', 'a']
      = ['\n', '\n', '-', '•', 'a'] := by decide
  have t1 : specStripLeadingSpace ['\n', '\n', '-', '•', 'a']
      = '\n' :: specStripLeadingSpace ['\n', '-', '•', 'a'] := by
    rw [specStripLeadingSpace.eq_def]; rfl
  have t2 : specStripLeadingSpace ['\n', '-', '•', 'a']
      = '\n' :: specStripLeadingSpace ['-', '•', 'a'] := by
    rw [specStripLeadingSpace.eq_def]; rfl
  have t3 : specStripLeadingSpace ['-', '•', 'a']
      = '-' :: specStripLeadingSpace ['•', 'a'] := by
    rw [specStripLeadingSpace.eq_def]; rfl
  have t4 : specStripLeadingSpace ['•', 'a'] = '•' :: specStripLeadingSpace ['a'] := by
    rw [specStripLeadingSpace.eq_def]; rfl
  have t5 : specStripLeadingSpace ['a'] = 'a' :: specStripLeadingSpace [] := by
    rw [specStripLeadingSpace.eq_def]; rfl
  have t6 : specStripLeadingSpace ([] : List Char) = [] := by
    rw [specStripLeadingSpace.eq_def]
  have hspec : specParagraphFixup "\n\n-•a" = "\n\n-•a" := by
    rw [specParagraphFixup,
      show specNewlineToSpace ("\n\n-•a").data = ['\n', '\n', '-', '•', 'a'] from by decide,
      hc, t1, t2, t3, t4, t5, t6]
  refine ⟨hcode, hspec, ?_⟩
  rw [hcode, hspec]
  decide

/-- C9 (amended): the paragraph fix-up performs exactly these rewrites on
every input: a single newline not adjacent to another newline becomes one
space; a run of three or more consecutive newlines collapses to exactly
two; and directly after each newline, the run of whitespace, bullet and
hyphen characters is stripped up to the last bullet marker it precedes. -/
theorem paragraph_fixup_rewrites (s : String) :
    fix_paragraphs s = specParagraphFixupAmended s := by
  rw [fix_paragraphs, specParagraphFixupAmended, newlineToSpace_eq_spec,
    collapseNewlines_eq_spec, stripBeforeBullet_eq_specAmended]

end TextExtractor
